import Mathlib

/-!
Shallow embedding of the `linesqueak` line-editing engine (`editor.go`) and
proofs about its specification.

Modelling conventions:
* Go `[]rune` buffers become `List Char`; Go `string` becomes `String`
  (`String.mk` of its rune list).
* Go `int` becomes `Int`; list indexing at an `Int` index is modelled with an
  explicit bounds check where the Go code could panic (`editSwap`), and the
  surrounding invariant `0 ≤ Pos ≤ len(Buffer)` makes the other accesses safe.
* The `container/ring` circular list is modelled as a `List String` read in
  `Next` order starting from the current element (the list head is the ring
  element the Go pointer currently designates); `Next` rotates left, `Prev`
  rotates right, and `Link` after `Prev` of the current element appends at the
  end of that rotation.
* The input stream is a finite `List Char` of runes; reading from an exhausted
  stream models a failed `ReadRune`/`Peek` on the underlying channel
  (`channelError`).  `Peek(1)` looks at the next rune without consuming it;
  this is faithful for the ASCII control bytes the code dispatches on.
* Terminal output is not modelled byte-for-byte except where a claim needs it:
  each edit operation reports how many bell characters (`\x07`) it wrote, and
  the completion sub-loop records the list of strings it rendered.
-/

namespace Linesqueak

/-- Mutable editor state threaded through one `Line()` session: the rune
buffer, the cursor offset `Pos` (a Go `int`, hence `Int`), and the history
ring (head = current ring element). -/
structure EState where
  buffer : List Char
  pos : Int
  history : List String
  deriving Repr, DecidableEq

/-- Immutable session configuration: the optional completion provider
(`Editor.Complete`, `nil` when completion is disabled). -/
structure Config where
  complete : Option (String → List String)

/-- Ring operation `r.Next()`: move to the next element, i.e. rotate the
current-first listing left by one. -/
def ringNext : List String → List String
  | [] => []
  | h :: t => t ++ [h]

/-- Ring operation `r.Prev()`: move to the previous element, i.e. rotate the
current-first listing right by one. -/
def ringPrev (l : List String) : List String :=
  match l.getLast? with
  | none => []
  | some x => x :: l.dropLast

/-- Ring operation `r.Value = v`: overwrite the current element. -/
def ringSetValue (l : List String) (v : String) : List String :=
  match l with
  | [] => []
  | _ :: t => v :: t

/-- Ring operation pair `cs.Value = v; cs = cs.Next()` used when filling the
completion ring. -/
def ringSetNextStep (l : List String) (v : String) : List String :=
  match l with
  | [] => []
  | _ :: t => t ++ [v]

/-- Current ring element `r.Value` (empty string for the empty ring). -/
def ringCur (l : List String) : String :=
  l.headD ""

/-- Model of `editReset`: make sure the history ring is non-empty (one empty
slot), clear the buffer, zero the cursor. -/
def editReset (s : EState) : EState :=
  { buffer := []
    pos := 0
    history := if s.history.length = 0 then [""] else s.history }

/-- Model of `editBackspace`: at `Pos = 0` beep once and change nothing, else
decrement `Pos` and remove the rune at the new `Pos`. -/
def editBackspace (s : EState) : EState × Nat :=
  if s.pos = 0 then (s, 1)
  else ({ s with pos := s.pos - 1, buffer := s.buffer.eraseIdx (s.pos - 1).toNat }, 0)

/-- Model of `editDelete`: at `Pos = len(Buffer)` beep once and change
nothing, else remove the rune at `Pos`. -/
def editDelete (s : EState) : EState × Nat :=
  if s.pos = (s.buffer.length : Int) then (s, 1)
  else ({ s with buffer := s.buffer.eraseIdx s.pos.toNat }, 0)

/-- Go slice read `Buffer[i]` at an `Int` index: `none` models the
index-out-of-range panic. -/
def sliceGet (l : List Char) (i : Int) : Option Char :=
  if 0 ≤ i ∧ i < (l.length : Int) then some (l.getD i.toNat ' ') else none

/-- Model of `editSwap` (Transpose): pick `p` (cursor, or last index when the
cursor sits at the end), beep when `p = 0`, otherwise swap `Buffer[p-1]` and
`Buffer[p]` and advance the cursor unless it is at the end.  The result is
`none` when either slice access is out of range (a Go runtime panic). -/
def editSwap (s : EState) : Option (EState × Nat) :=
  let len : Int := s.buffer.length
  let p : Int := if s.pos = len then len - 1 else s.pos
  if p = 0 then some (s, 1)
  else
    match sliceGet s.buffer (p - 1), sliceGet s.buffer p with
    | some a, some b =>
        some ({ s with
                  buffer := (s.buffer.set (p - 1).toNat b).set p.toNat a
                  pos := if s.pos < len then s.pos + 1 else s.pos }, 0)
    | _, _ => none

/-- Model of `editMoveLeft`. -/
def editMoveLeft (s : EState) : EState × Nat :=
  if s.pos = 0 then (s, 1) else ({ s with pos := s.pos - 1 }, 0)

/-- Model of `editMoveRight`. -/
def editMoveRight (s : EState) : EState × Nat :=
  if s.pos = (s.buffer.length : Int) then (s, 1) else ({ s with pos := s.pos + 1 }, 0)

/-- Model of `editMoveHome`. -/
def editMoveHome (s : EState) : EState × Nat :=
  if s.pos = 0 then (s, 1) else ({ s with pos := 0 }, 0)

/-- Model of `editMoveEnd`. -/
def editMoveEnd (s : EState) : EState × Nat :=
  if s.pos = (s.buffer.length : Int) then (s, 1)
  else ({ s with pos := (s.buffer.length : Int) }, 0)

/-- Model of `editHistoryPrev`: beep on an empty ring; otherwise store the
current buffer into the current slot, step to the previous element, and load
it into the buffer with the cursor at its end. -/
def editHistoryPrev (s : EState) : EState × Nat :=
  if s.history.length = 0 then (s, 1)
  else
    let h := ringPrev (ringSetValue s.history (String.mk s.buffer))
    let b := (ringCur h).data
    ({ buffer := b, pos := (b.length : Int), history := h }, 0)

/-- Model of `editHistoryNext`: like `editHistoryPrev` with `Next`. -/
def editHistoryNext (s : EState) : EState × Nat :=
  if s.history.length = 0 then (s, 1)
  else
    let h := ringNext (ringSetValue s.history (String.mk s.buffer))
    let b := (ringCur h).data
    ({ buffer := b, pos := (b.length : Int), history := h }, 0)

/-- Model of `editKillForward`: truncate the buffer at the cursor. -/
def editKillForward (s : EState) : EState × Nat :=
  ({ s with buffer := s.buffer.take s.pos.toNat }, 0)

/-- Backward scan of `editDeletePrevWord`: walk `i` down from `Pos - 1`,
setting the flag `w` on a non-space, skipping spaces while `w` is unset, and
stopping with `i + 1` at the first space seen after `w` was set; `0` when the
scan runs out. -/
def dpwLoop (buf : List Char) (i : Int) (w : Bool) : Int :=
  if i < 0 then 0
  else if buf.getD i.toNat ' ' ≠ ' ' then dpwLoop buf (i - 1) true
  else if !w then dpwLoop buf (i - 1) w
  else i + 1
termination_by (i + 1).toNat
decreasing_by all_goals omega

/-- Model of `editDeletePrevWord`: truncate the buffer at the scan result and
move the cursor there. -/
def editDeletePrevWord (s : EState) : EState × Nat :=
  let p := dpwLoop s.buffer (s.pos - 1) false
  ({ s with buffer := s.buffer.take p.toNat, pos := p }, 0)

/-- Model of `editInsert`: splice the rune in at the cursor and advance. -/
def editInsert (s : EState) (r : Char) : EState × Nat :=
  ({ s with
       buffer := s.buffer.take s.pos.toNat ++ r :: s.buffer.drop s.pos.toNat
       pos := s.pos + 1 }, 0)

/-- Cursor invariant from the data model: `0 ≤ Pos ≤ len(Buffer)`. -/
def inv (s : EState) : Prop :=
  0 ≤ s.pos ∧ s.pos ≤ (s.buffer.length : Int)

instance (s : EState) : Decidable (inv s) := by
  unfold inv; infer_instance

/-- Model of `HistoryAdd`: replace a `nil` ring by a fresh one-slot ring,
skip when the argument equals the current ring element, otherwise link a new
element between `Prev` of the current element and the current element, i.e.
append it at the end of the current-first listing. -/
def historyAdd (h : List String) (l : String) : List String :=
  let h0 := if h = [] then [""] else h
  if ringCur h0 = l then h0
  else h0 ++ [l]

/-- Outcome of one `AdjustDimensions` call once the response string has been
read: a normal return with parsed dimensions, an error return (failed
`strconv.Atoi`), or a runtime panic (indexing the `nil` result of a failed
`FindStringSubmatch`). -/
inductive AdjustOutcome
  | ok
  | errReturn
  | panics
  deriving Repr, DecidableEq

/-- Final observable state of an `AdjustDimensions` call. -/
structure AdjustRes where
  outcome : AdjustOutcome
  rows : Int
  cols : Int
  deriving Repr, DecidableEq

/-- Match the regular expression `\x1b\[(\d+);(\d+)R` at the head of the
list, returning the two digit groups. -/
def matchDimAt (l : List Char) : Option (List Char × List Char) :=
  match l with
  | c1 :: c2 :: rest =>
    if c1 = Char.ofNat 27 ∧ c2 = '[' then
      let d1 := rest.takeWhile Char.isDigit
      if d1 = [] then none
      else
        match rest.dropWhile Char.isDigit with
        | ';' :: rest2 =>
          let d2 := rest2.takeWhile Char.isDigit
          if d2 = [] then none
          else
            match rest2.dropWhile Char.isDigit with
            | 'R' :: _ => some (d1, d2)
            | _ => none
        | _ => none
    else none
  | _ => none

/-- Leftmost match of the dimension pattern
(`regexp.FindStringSubmatch`, `none` = `nil`). -/
def findDim : List Char → Option (List Char × List Char)
  | [] => none
  | c :: rest =>
    match matchDimAt (c :: rest) with
    | some g => some g
    | none => findDim rest

/-- Model of `strconv.Atoi` on an all-digit string: its value, or `none`
(an `ErrRange` error return) when the value exceeds the 64-bit `int`. -/
def atoiDigits (ds : List Char) : Option Int :=
  if ds = [] then none
  else
    let v := ds.foldl (fun a c => a * 10 + ((c.toNat : Int) - 48)) 0
    if v ≤ 9223372036854775807 then some v else none

/-- Model of `AdjustDimensions` after the response `res` has been read from
the terminal (everything up to and including the first `R`), given the prior
`Rows`/`Cols`: a missing regex match makes `ms` nil and `ms[1]` panics;
a failed `Atoi` is returned as an error with the dimensions untouched;
otherwise `Cols`/`Rows` are updated. -/
def adjustDimensions (res : List Char) (oldRows oldCols : Int) : AdjustRes :=
  match findDim res with
  | none => ⟨.panics, oldRows, oldCols⟩
  | some (g1, g2) =>
    match atoiDigits g1 with
    | none => ⟨.errReturn, oldRows, oldCols⟩
    | some r =>
      match atoiDigits g2 with
      | none => ⟨.errReturn, oldRows, oldCols⟩
      | some c => ⟨.ok, r, c⟩

/-- Key rune for the completion trigger (tab). -/
def tabChar : Char := Char.ofNat 9

/-- Key rune for escape. -/
def escChar : Char := Char.ofNat 27

/-- How the completion sub-loop ended: cancel (esc), commit (any other
rune), or a failed `Peek` on the input channel. -/
inductive COutcome
  | cancel
  | commit
  | errPeek
  deriving Repr, DecidableEq

/-- Observable result of the completion sub-loop: the strings rendered by
`refreshLineString` in order, the final buffer and cursor, the unconsumed
input, the outcome, and the buffer redrawn by `refreshLine` on cancel. -/
structure CompleteRes where
  displayed : List String
  buffer : List Char
  pos : Int
  rest : List Char
  outcome : COutcome
  finalRedraw : Option String
  deriving Repr, DecidableEq

/-- The completion sub-loop of `completeLine`: render the current ring
element, peek one input rune; tab consumes it and advances the ring; esc
consumes it, redraws the original buffer and exits; anything else is left
unconsumed and the rendered candidate is committed with the cursor at its
end. -/
def completeLoop (ringS : List String) (buf : List Char) (pos : Int) :
    List Char → CompleteRes
  | [] => ⟨[ringCur ringS], buf, pos, [], .errPeek, none⟩
  | b :: bs =>
    if b = tabChar then
      let res := completeLoop (ringNext ringS) buf pos bs
      { res with displayed := ringCur ringS :: res.displayed }
    else if b = escChar then
      ⟨[ringCur ringS], buf, pos, bs, .cancel, some (String.mk buf)⟩
    else
      ⟨[ringCur ringS], (ringCur ringS).data, ((ringCur ringS).length : Int),
        b :: bs, .commit, none⟩

/-- The completion ring as `completeLine` builds it: a fresh ring of
`len(opts) + 1` slots, each candidate written and stepped past, then the
original buffer content written into the last slot and one final step back
to the first candidate. -/
def buildRing (opts : List String) (orig : String) : List String :=
  ringSetNextStep (opts.foldl ringSetNextStep (List.replicate (opts.length + 1) "")) orig

/-- How one `Line()` call ended: enter, ctrl-C (`"try again"`), ctrl-D on an
empty buffer (`io.EOF`), a failed channel read, or a runtime panic. -/
inductive LineExit
  | accepted
  | interrupted
  | eof
  | channelError
  | panicked
  deriving Repr, DecidableEq

/-- Result of one `Line()` call: the string component of each `return`
statement exactly as the source builds it (`none` when the call panics and
never returns), the editor state at the moment of return, and the exit
kind. -/
structure LineRes where
  out : Option String
  state : EState
  exit : LineExit

/-- One iteration of the `Line()` loop either returns or continues with a
new state and the unconsumed input. -/
inductive StepOut
  | done (res : LineRes)
  | cont (s : EState) (rest : List Char)

/-- The `esc` arm of the `Line()` switch: read further runes and dispatch
CSI (`[`) and SS3 (`O`) sequences; a failed read returns the channel
error with the current buffer. -/
def escStep (s : EState) (rest : List Char) : StepOut :=
  match rest with
  | [] => .done ⟨some (String.mk s.buffer), s, .channelError⟩
  | r2 :: rest2 =>
    if r2 = '[' then
      match rest2 with
      | [] => .done ⟨some (String.mk s.buffer), s, .channelError⟩
      | r3 :: rest3 =>
        if r3 = '0' ∨ r3 = '1' ∨ r3 = '2' ∨ r3 = '4' ∨ r3 = '5' ∨ r3 = '6' ∨
            r3 = '7' ∨ r3 = '8' ∨ r3 = '9' then
          match rest3 with
          | [] => .done ⟨some (String.mk s.buffer), s, .channelError⟩
          | _ :: rest4 => .cont s rest4
        else if r3 = '3' then
          match rest3 with
          | [] => .done ⟨some (String.mk s.buffer), s, .channelError⟩
          | r4 :: rest4 =>
            if r4 = '~' then .cont (editDelete s).1 rest4 else .cont s rest4
        else if r3 = 'A' then .cont (editHistoryPrev s).1 rest3
        else if r3 = 'B' then .cont (editHistoryNext s).1 rest3
        else if r3 = 'C' then .cont (editMoveRight s).1 rest3
        else if r3 = 'D' then .cont (editMoveLeft s).1 rest3
        else if r3 = 'H' then .cont (editMoveHome s).1 rest3
        else if r3 = 'F' then .cont (editMoveEnd s).1 rest3
        else .cont s rest3
    else if r2 = 'O' then
      match rest2 with
      | [] => .done ⟨some (String.mk s.buffer), s, .channelError⟩
      | r3 :: rest3 =>
        if r3 = 'H' then .cont (editMoveHome s).1 rest3
        else if r3 = 'F' then .cont (editMoveEnd s).1 rest3
        else .cont s rest3
    else .cont s rest2

/-- Return into the main loop from the completion sub-loop: a failed peek
is a channel error returned with the buffer as restored by the sub-loop;
otherwise editing continues from the sub-loop's final buffer and cursor with
its unconsumed input. -/
def completeFinish (hist : List String) (res : CompleteRes) : StepOut :=
  match res.outcome with
  | .errPeek =>
    .done ⟨some (String.mk res.buffer), ⟨res.buffer, res.pos, hist⟩, .channelError⟩
  | _ => .cont ⟨res.buffer, res.pos, hist⟩ res.rest

/-- The `tab` arm of the `Line()` switch (`completeLine`): insert a literal
tab when no completion provider is configured, beep on an empty candidate
list, otherwise run the completion sub-loop on the built ring. -/
def completeStep (cfg : Config) (s : EState) (rest : List Char) : StepOut :=
  match cfg.complete with
  | none => .cont (editInsert s tabChar).1 rest
  | some f =>
    if f (String.mk s.buffer) = [] then .cont s rest
    else
      completeFinish s.history
        (completeLoop (buildRing (f (String.mk s.buffer)) (String.mk s.buffer))
          s.buffer s.pos rest)

/-- The body of the `Line()` loop: dispatch one rune `r` exactly as the Go
switch does (the cases are disjoint, so dispatch order is immaterial). -/
def lineStep (cfg : Config) (s : EState) (r : Char) (rest : List Char) : StepOut :=
  match r.toNat with
  | 13 => .done ⟨some (String.mk s.buffer), s, .accepted⟩
  | 3 => .done ⟨some (String.mk s.buffer), s, .interrupted⟩
  | 127 => .cont (editBackspace s).1 rest
  | 8 => .cont (editBackspace s).1 rest
  | 4 =>
    if s.buffer.length = 0 then .done ⟨some (String.mk s.buffer), s, .eof⟩
    else .cont (editDelete s).1 rest
  | 20 =>
    match editSwap s with
    | some (s1, _) => .cont s1 rest
    | none => .done ⟨none, s, .panicked⟩
  | 2 => .cont (editMoveLeft s).1 rest
  | 6 => .cont (editMoveRight s).1 rest
  | 16 => .cont (editHistoryPrev s).1 rest
  | 14 => .cont (editHistoryNext s).1 rest
  | 21 => .cont (editReset s) rest
  | 11 => .cont (editKillForward s).1 rest
  | 1 => .cont (editMoveHome s).1 rest
  | 5 => .cont (editMoveEnd s).1 rest
  | 12 => .cont s rest
  | 23 => .cont (editDeletePrevWord s).1 rest
  | 27 => escStep s rest
  | 9 => completeStep cfg s rest
  | _ => .cont (editInsert s r).1 rest

theorem completeLoop_rest_le (input : List Char) :
    ∀ ringS buf pos, (completeLoop ringS buf pos input).rest.length ≤ input.length := by
  induction input with
  | nil => intro ringS buf pos; simp [completeLoop]
  | cons b bs ih =>
    intro ringS buf pos
    simp only [completeLoop]
    split_ifs with h1 h2
    · exact Nat.le_succ_of_le (ih (ringNext ringS) buf pos)
    · simp
    · simp

theorem escStep_shrinks (s : EState) (rest : List Char) (s1 : EState)
    (rest1 : List Char) (h : escStep s rest = .cont s1 rest1) :
    rest1.length ≤ rest.length := by
  unfold escStep at h
  rcases rest with _ | ⟨r2, rest2⟩
  · simp at h
  · simp only [] at h
    split_ifs at h with h1 h2
    · rcases rest2 with _ | ⟨r3, rest3⟩
      · simp at h
      · simp only [] at h
        split_ifs at h with g1 g2
        · rcases rest3 with _ | ⟨r4, rest4⟩
          · simp at h
          · simp only [] at h
            cases h
            simp only [List.length_cons]
            omega
        · rcases rest3 with _ | ⟨r4, rest4⟩
          · simp at h
          · simp only [] at h
            split_ifs at h <;>
              (cases h; simp only [List.length_cons]; omega)
        all_goals (cases h; simp only [List.length_cons]; omega)
    · rcases rest2 with _ | ⟨r3, rest3⟩
      · simp at h
      · simp only [] at h
        split_ifs at h <;>
          (cases h; simp only [List.length_cons]; omega)
    · cases h
      simp only [List.length_cons]
      omega

theorem completeFinish_cont_rest (hist : List String) (res : CompleteRes)
    (s1 : EState) (rest1 : List Char) (h : completeFinish hist res = .cont s1 rest1) :
    rest1 = res.rest := by
  unfold completeFinish at h
  rcases ho : res.outcome with _ | _ | _ <;> rw [ho] at h <;> first | (cases h; rfl) | simp at h

theorem completeStep_shrinks (cfg : Config) (s : EState) (rest : List Char)
    (s1 : EState) (rest1 : List Char) (h : completeStep cfg s rest = .cont s1 rest1) :
    rest1.length ≤ rest.length := by
  unfold completeStep at h
  rcases hc : cfg.complete with _ | f <;> rw [hc] at h <;> simp only [] at h
  · cases h; exact Nat.le_refl _
  · split_ifs at h with h1
    · cases h; exact Nat.le_refl _
    · rw [completeFinish_cont_rest _ _ _ _ h]
      exact completeLoop_rest_le rest _ _ _

theorem lineStep_shrinks (cfg : Config) (s : EState) (r : Char)
    (rest : List Char) (s1 : EState) (rest1 : List Char)
    (h : lineStep cfg s r rest = .cont s1 rest1) :
    rest1.length ≤ rest.length := by
  unfold lineStep at h
  split at h <;>
    first
    | (cases h <;> exact Nat.le_refl _)
    | (split at h <;> cases h <;> exact Nat.le_refl _)
    | (exact escStep_shrinks s rest s1 rest1 h)
    | (exact completeStep_shrinks cfg s rest s1 rest1 h)

/-- The `Line()` loop over a finite input stream: dispatch runes until a
`return` statement is reached; an exhausted stream is a failed `ReadRune`
(channel error). -/
def lineLoop (cfg : Config) (s : EState) (input : List Char) : LineRes :=
  match input with
  | [] => ⟨some (String.mk s.buffer), s, .channelError⟩
  | r :: rest =>
    match h : lineStep cfg s r rest with
    | .done res => res
    | .cont s1 rest1 => lineLoop cfg s1 rest1
termination_by input.length
decreasing_by
  simp only [List.length_cons]
  exact Nat.lt_succ_of_le (lineStep_shrinks _ _ _ _ _ _ (by assumption))

/-- Model of `Line()`: reset the editor state, then run the loop. -/
def LineFn (cfg : Config) (s : EState) (input : List Char) : LineRes :=
  lineLoop cfg (editReset s) input

/-- Default character width: 4 columns for a tab, 1 otherwise. -/
def defaultWidth (r : Char) : Int :=
  if r.toNat = 9 then 4 else 1

/-- Cumulative display width of a rune sequence under a width function
(the `pw`/`hw` accumulation loops of `refreshLine`). -/
def widthSum (f : Char → Int) (l : List Char) : Int :=
  l.foldl (fun a c => a + f c) 0

/-- The single buffer loop of `refreshLine` accumulating `bw`, `cw` and
`ocw`: every rune counts into `bw`, runes before the cursor into `cw`, runes
before the previous cursor into `ocw`. -/
def bufWidthsGo (f : Char → Int) (pos old : Int) :
    Nat → List Char → Int × Int × Int → Int × Int × Int
  | _, [], acc => acc
  | i, r :: rs, (bw, cw, ocw) =>
    bufWidthsGo f pos old (i + 1) rs
      (bw + f r,
       (if (i : Int) < pos then cw + f r else cw),
       (if (i : Int) < old then ocw + f r else ocw))

/-- A terminal position as `refreshLine` computes it (column, row). -/
structure RenderPos where
  cols : Int
  rows : Int
  deriving Repr, DecidableEq

/-- The geometry part of `refreshLine`: the end-of-content position `ep`,
the cursor position `cp` and the previous cursor position `ocp`, each
obtained from a cumulative width by division and remainder by `Cols`
(Go's `/` and `%` on `int`, i.e. truncated division). -/
def refreshGeometry (f : Char → Int) (prompt buffer : List Char) (pos old : Int)
    (hint : List Char) (colsT : Int) : RenderPos × RenderPos × RenderPos :=
  let pw := widthSum f prompt
  let w3 := bufWidthsGo f pos old 0 buffer (0, 0, 0)
  let bw := w3.1
  let cw := w3.2.1
  let ocw := w3.2.2
  let hw := widthSum f hint
  (⟨Int.tmod (pw + bw + hw) colsT, Int.tdiv (pw + bw + hw) colsT⟩,
   ⟨Int.tmod (pw + cw) colsT, Int.tdiv (pw + cw) colsT⟩,
   ⟨Int.tmod (pw + ocw) colsT, Int.tdiv (pw + ocw) colsT⟩)

/-- The edit operations named by the data-model invariant: every buffer or
cursor mutation a `Line()` session can perform. -/
inductive Op where
  | insert (r : Char)
  | backspace
  | delete
  | swap
  | killForward
  | deletePrevWord
  | moveLeft
  | moveRight
  | moveHome
  | moveEnd
  | historyPrev
  | historyNext
  | reset
  | completeCommit (c : String)
  | completeCancel

/-- Apply one edit operation: the state and bell count it produces, or
`none` when the operation panics (`editSwap` out of range).  The completion
operations are the two exits of the sub-loop: commit sets the buffer to the
displayed candidate with the cursor at its end, cancel restores the
pre-completion state. -/
def applyOp : Op → EState → Option (EState × Nat)
  | .insert r, s => some (editInsert s r)
  | .backspace, s => some (editBackspace s)
  | .delete, s => some (editDelete s)
  | .swap, s => editSwap s
  | .killForward, s => some (editKillForward s)
  | .deletePrevWord, s => some (editDeletePrevWord s)
  | .moveLeft, s => some (editMoveLeft s)
  | .moveRight, s => some (editMoveRight s)
  | .moveHome, s => some (editMoveHome s)
  | .moveEnd, s => some (editMoveEnd s)
  | .historyPrev, s => some (editHistoryPrev s)
  | .historyNext, s => some (editHistoryNext s)
  | .reset, s => some (editReset s, 0)
  | .completeCommit c, s => some ({ s with buffer := c.data, pos := (c.data.length : Int) }, 0)
  | .completeCancel, s => some (s, 0)

/-- The `editDeletePrevWord` scan expressed over the reversed prefix before
the cursor: skip spaces while `w` is unset, switch `w` on a non-space, and
answer one past the position of the first space seen after that; `0` when
the list runs out. -/
def dpwList : List Char → Bool → Nat
  | [], _ => 0
  | c :: cs, w =>
    if c ≠ ' ' then dpwList cs true
    else if !w then dpwList cs w
    else cs.length + 1

theorem widthSum_foldl (f : Char → Int) (l : List Char) :
    ∀ x : Int, l.foldl (fun a c => a + f c) x = x + widthSum f l := by
  induction l with
  | nil => intro x; simp [widthSum]
  | cons c cs ih =>
    intro x
    simp only [widthSum, List.foldl_cons] at ih ⊢
    rw [ih (x + f c), ih (0 + f c)]
    omega

theorem widthSum_cons (f : Char → Int) (c : Char) (l : List Char) :
    widthSum f (c :: l) = f c + widthSum f l := by
  calc widthSum f (c :: l) = l.foldl (fun a x => a + f x) (0 + f c) := rfl
    _ = (0 + f c) + widthSum f l := widthSum_foldl f l (0 + f c)
    _ = f c + widthSum f l := by omega

theorem bufWidthsGo_eq (f : Char → Int) (pos old : Int) (l : List Char) :
    ∀ (i : Nat) (bw cw ocw : Int),
      bufWidthsGo f pos old i l (bw, cw, ocw) =
        (bw + widthSum f l,
         cw + widthSum f (l.take (pos - i).toNat),
         ocw + widthSum f (l.take (old - i).toNat)) := by
  induction l with
  | nil => intro i bw cw ocw; simp [bufWidthsGo, widthSum]
  | cons r rs ih =>
    intro i bw cw ocw
    rw [bufWidthsGo, ih]
    have key : ∀ (q : Int) (acc : Int),
        (if (i : Int) < q then acc + f r else acc) +
            widthSum f (rs.take (q - (i + 1 : Nat)).toNat) =
          acc + widthSum f ((r :: rs).take (q - i).toNat) := by
      intro q acc
      by_cases hq : (i : Int) < q
      · have h1 : (q - (i : Int)).toNat = (q - ((i : Nat) + 1 : Nat)).toNat + 1 := by
          push_cast
          omega
        rw [if_pos hq, h1, List.take_succ_cons, widthSum_cons]
        omega
      · have h1 : (q - (i : Int)).toNat = 0 := by omega
        have h2 : (q - ((i : Nat) + 1 : Nat)).toNat = 0 := by push_cast; omega
        rw [if_neg hq, h1, h2]
        simp [widthSum]
    rw [Prod.mk.injEq, Prod.mk.injEq]
    refine ⟨?_, key pos cw, key old ocw⟩
    rw [widthSum_cons]
    omega

theorem dpwLoop_nonneg (buf : List Char) (i : Int) (w : Bool) :
    0 ≤ dpwLoop buf i w := by
  induction i, w using dpwLoop.induct buf with
  | case1 i w h => rw [dpwLoop, if_pos h]
  | case2 i w h1 h2 ih => rw [dpwLoop, if_neg h1, if_pos h2]; exact ih
  | case3 i w h1 h2 h3 ih => rw [dpwLoop, if_neg h1, if_neg h2, if_pos h3]; exact ih
  | case4 i w h1 h2 h3 => rw [dpwLoop, if_neg h1, if_neg h2, if_neg h3]; omega

theorem dpwLoop_le (buf : List Char) (i : Int) (w : Bool) :
    dpwLoop buf i w ≤ ((i + 1).toNat : Int) := by
  induction i, w using dpwLoop.induct buf with
  | case1 i w h => rw [dpwLoop, if_pos h]; omega
  | case2 i w h1 h2 ih =>
    rw [dpwLoop, if_neg h1, if_pos h2]
    omega
  | case3 i w h1 h2 h3 ih =>
    rw [dpwLoop, if_neg h1, if_neg h2, if_pos h3]
    omega
  | case4 i w h1 h2 h3 => rw [dpwLoop, if_neg h1, if_neg h2, if_neg h3]; omega

theorem foldl_ringSetNextStep (xs : List String) :
    ∀ r : List String, xs.length ≤ r.length →
      xs.foldl ringSetNextStep r = r.drop xs.length ++ xs := by
  induction xs with
  | nil => intro r _; simp
  | cons x xs ih =>
    intro r hr
    cases r with
    | nil => simp at hr
    | cons h t =>
      simp only [List.foldl_cons, ringSetNextStep]
      have ht : xs.length ≤ (t ++ [x]).length := by
        simp only [List.length_cons] at hr
        simp
        omega
      rw [ih (t ++ [x]) ht]
      have ht2 : xs.length ≤ t.length := by
        simp only [List.length_cons] at hr
        omega
      rw [List.drop_append_of_le_length ht2]
      simp

theorem buildRing_eq (opts : List String) (orig : String) :
    buildRing opts orig = opts ++ [orig] := by
  unfold buildRing
  rw [foldl_ringSetNextStep opts (List.replicate (opts.length + 1) "") (by simp)]
  rw [List.drop_replicate]
  have : opts.length + 1 - opts.length = 1 := by omega
  rw [this]
  rfl

theorem ringNext_eq_rotate (l : List String) : ringNext l = l.rotate 1 := by
  cases l with
  | nil => simp [ringNext]
  | cons h t =>
    have : (h :: t).rotate (0 + 1) = (t ++ [h]).rotate 0 := List.rotate_cons_succ t h 0
    simpa [ringNext] using this.symm

theorem ringCur_rotate (l : List String) (hl : l ≠ []) (j : Nat) :
    ringCur (l.rotate j) = l.getD (j % l.length) "" := by
  have hlen : 0 < l.length := List.length_pos.mpr hl
  have hrl : 0 < (l.rotate j).length := by
    rw [List.length_rotate]
    exact hlen
  have hmod : j % l.length < l.length := Nat.mod_lt _ hlen
  rw [ringCur, List.headD_eq_head?, List.head?_eq_getElem?]
  rw [List.getElem?_eq_getElem hrl, List.getD_eq_getElem?_getD, List.getElem?_eq_getElem hmod]
  have := List.get_rotate l j ⟨0, hrl⟩
  simp only [List.get_eq_getElem] at this
  simp [this]

theorem take_succ_reverse (buf : List Char) (n : Nat) (hn : n < buf.length) :
    (buf.take (n + 1)).reverse = buf.getD n ' ' :: (buf.take n).reverse := by
  rw [List.take_succ, List.getElem?_eq_getElem hn, Option.toList_some, List.reverse_append,
    List.reverse_singleton, List.getD_eq_getElem _ _ hn, List.singleton_append]

theorem dpwLoop_eq_dpwList (buf : List Char) (i : Int) (w : Bool)
    (hi : i < (buf.length : Int)) :
    dpwLoop buf i w = (dpwList ((buf.take (i + 1).toNat).reverse) w : Nat) := by
  induction i, w using dpwLoop.induct buf with
  | case1 i w h =>
    have h0 : (i + 1).toNat = 0 := by omega
    rw [dpwLoop, if_pos h, h0]
    simp [dpwList]
  | case2 i w h1 h2 ih =>
    have hlt : i.toNat < buf.length := by omega
    have hsucc : (i + 1).toNat = i.toNat + 1 := by omega
    rw [dpwLoop, if_neg h1, if_pos h2, hsucc, take_succ_reverse buf i.toNat hlt]
    rw [dpwList, if_pos h2]
    have hstep : ((i : Int) - 1 + 1).toNat = i.toNat := by omega
    rw [ih (by omega), hstep]
  | case3 i w h1 h2 h3 ih =>
    have hlt : i.toNat < buf.length := by omega
    have hsucc : (i + 1).toNat = i.toNat + 1 := by omega
    rw [dpwLoop, if_neg h1, if_neg h2, if_pos h3, hsucc, take_succ_reverse buf i.toNat hlt]
    rw [dpwList, if_neg h2, if_pos h3]
    have hstep : ((i : Int) - 1 + 1).toNat = i.toNat := by omega
    rw [ih (by omega), hstep]
  | case4 i w h1 h2 h3 =>
    have hlt : i.toNat < buf.length := by omega
    have hsucc : (i + 1).toNat = i.toNat + 1 := by omega
    rw [dpwLoop, if_neg h1, if_neg h2, if_neg h3, hsucc, take_succ_reverse buf i.toNat hlt]
    rw [dpwList, if_neg h2, if_neg h3]
    have hlen : ((buf.take i.toNat).reverse).length = i.toNat := by
      simp
      omega
    rw [hlen]
    omega

theorem dpwList_true (l : List Char) :
    dpwList l true = (l.dropWhile (fun c => !(c == ' '))).length := by
  induction l with
  | nil => rfl
  | cons c cs ih =>
    by_cases hc : c = ' '
    · subst hc
      rw [dpwList, if_neg (by simp), if_neg (by simp)]
      simp [List.dropWhile]
    · rw [dpwList, if_pos hc, ih]
      rw [List.dropWhile_cons_of_pos (by simpa using hc)]

theorem dpwList_false (l : List Char) :
    dpwList l false =
      ((l.dropWhile (fun c => c == ' ')).dropWhile (fun c => !(c == ' '))).length := by
  induction l with
  | nil => rfl
  | cons c cs ih =>
    by_cases hc : c = ' '
    · subst hc
      rw [dpwList, if_neg (by simp), if_pos (by simp), ih]
      rw [List.dropWhile_cons_of_pos (by simp)]
    · rw [dpwList, if_pos hc, dpwList_true cs]
      rw [List.dropWhile_cons_of_neg (by simpa using hc)]
      rw [List.dropWhile_cons_of_pos (by simpa using hc)]

/-- C9: DeletePrevWord scans backward from the cursor, skipping first the
trailing run of spaces (only the space character is a separator), then the
run of non-spaces, and truncates buffer and cursor at the boundary found —
equivalently, on the reversed prefix before the cursor it drops the run of
spaces and then the run of non-spaces and keeps what remains; when no such
space boundary exists the buffer is truncated to empty (length 0). -/
theorem editDeletePrevWord_boundary (s : EState) (hs : inv s) :
    editDeletePrevWord s =
      ({ s with
           buffer := s.buffer.take
             (((s.buffer.take s.pos.toNat).reverse.dropWhile (fun c => c == ' ')).dropWhile
               (fun c => !(c == ' '))).length
           pos := ((((s.buffer.take s.pos.toNat).reverse.dropWhile (fun c => c == ' ')).dropWhile
               (fun c => !(c == ' '))).length : Int) }, 0) := by
  obtain ⟨hs0, hs1⟩ := hs
  have hi : s.pos - 1 < (s.buffer.length : Int) := by omega
  have hstep : (s.pos - 1 + 1).toNat = s.pos.toNat := by omega
  rw [editDeletePrevWord]
  rw [dpwLoop_eq_dpwList s.buffer (s.pos - 1) false hi, hstep, dpwList_false]
  simp

theorem completeLoop_tabs (cyc : List String) (hc : cyc ≠ []) (buf : List Char)
    (pos : Int) (b : Char) (hb : b ≠ tabChar) (k : Nat) :
    ∀ j : Nat,
      completeLoop (cyc.rotate j) buf pos (List.replicate k tabChar ++ [b]) =
        if b = escChar then
          ⟨(List.range (k + 1)).map (fun n => cyc.getD ((j + n) % cyc.length) ""),
            buf, pos, [], .cancel, some (String.mk buf)⟩
        else
          ⟨(List.range (k + 1)).map (fun n => cyc.getD ((j + n) % cyc.length) ""),
            (cyc.getD ((j + k) % cyc.length) "").data,
            ((cyc.getD ((j + k) % cyc.length) "").length : Int),
            [b], .commit, none⟩ := by
  induction k with
  | zero =>
    intro j
    simp only [List.replicate, List.nil_append]
    rw [completeLoop, if_neg hb, ringCur_rotate cyc hc j]
    by_cases he : b = escChar
    · rw [if_pos he, if_pos he]
      simp [List.range_succ]
    · rw [if_neg he, if_neg he]
      simp [List.range_succ]
  | succ k ih =>
    intro j
    rw [List.replicate_succ, List.cons_append, completeLoop, if_pos rfl]
    rw [ringNext_eq_rotate, List.rotate_rotate, ih (j + 1), ringCur_rotate cyc hc j]
    have hrange : (List.range (k + 1 + 1)).map (fun n => cyc.getD ((j + n) % cyc.length) "") =
        cyc.getD (j % cyc.length) "" ::
          (List.range (k + 1)).map (fun n => cyc.getD ((j + 1 + n) % cyc.length) "") := by
      rw [List.range_succ_eq_map, List.map_cons, List.map_map]
      refine congrArg₂ _ (by rw [Nat.add_zero]) ?_
      refine List.map_congr_left ?_
      intro n _
      have : j + Nat.succ n = j + 1 + n := by omega
      simp [Function.comp, this]
    have hidx : j + (k + 1) = j + 1 + k := by omega
    by_cases he : b = escChar
    · rw [if_pos he, if_pos he, hrange]
    · rw [if_neg he, if_neg he, hrange, hidx]

/-- C4: the completion sub-loop displays the cyclic sequence
`candidates ++ [original buffer]` starting at index 0, advancing with
wrap-around on each further trigger key; esc at any index exits with the
buffer exactly equal to its pre-completion content and redraws it; any other
rune commits the currently displayed candidate with the cursor at its end
and is left unconsumed. -/
theorem completeLine_cycles (opts : List String) (_ho : opts ≠ []) (buf : List Char)
    (pos : Int) (b : Char) (hb : b ≠ tabChar) (k : Nat) :
    completeLoop (buildRing opts (String.mk buf)) buf pos
        (List.replicate k tabChar ++ [b]) =
      if b = escChar then
        ⟨(List.range (k + 1)).map
            (fun n => (opts ++ [String.mk buf]).getD (n % (opts.length + 1)) ""),
          buf, pos, [], .cancel, some (String.mk buf)⟩
      else
        ⟨(List.range (k + 1)).map
            (fun n => (opts ++ [String.mk buf]).getD (n % (opts.length + 1)) ""),
          ((opts ++ [String.mk buf]).getD (k % (opts.length + 1)) "").data,
          (((opts ++ [String.mk buf]).getD (k % (opts.length + 1)) "").length : Int),
          [b], .commit, none⟩ := by
  have hlen : (opts ++ [String.mk buf]).length = opts.length + 1 := by simp
  have hne : (opts ++ [String.mk buf]) ≠ [] := by simp
  have h0 : buildRing opts (String.mk buf) = (opts ++ [String.mk buf]).rotate 0 := by
    rw [List.rotate_zero, buildRing_eq]
  rw [h0, completeLoop_tabs (opts ++ [String.mk buf]) hne buf pos b hb k 0]
  simp only [Nat.zero_add, hlen]

theorem escStep_done_out (s : EState) (rest : List Char) (res : LineRes)
    (h : escStep s rest = .done res) :
    res.out = if res.exit = LineExit.panicked then none
      else some (String.mk res.state.buffer) := by
  unfold escStep at h
  rcases rest with _ | ⟨r2, rest2⟩
  · cases h; rfl
  · simp only [] at h
    split_ifs at h with h1 h2
    · rcases rest2 with _ | ⟨r3, rest3⟩
      · cases h; rfl
      · simp only [] at h
        split_ifs at h with g1 g2
        · rcases rest3 with _ | ⟨r4, rest4⟩
          · simp only [] at h; cases h; rfl
          · simp only [] at h; cases h
        · rcases rest3 with _ | ⟨r4, rest4⟩
          · simp only [] at h; cases h; rfl
          · simp only [] at h; split_ifs at h
    · rcases rest2 with _ | ⟨r3, rest3⟩
      · cases h; rfl
      · simp only [] at h; split_ifs at h

theorem completeFinish_done_out (hist : List String) (cres : CompleteRes) (res : LineRes)
    (h : completeFinish hist cres = .done res) :
    res.out = if res.exit = LineExit.panicked then none
      else some (String.mk res.state.buffer) := by
  unfold completeFinish at h
  rcases ho : cres.outcome with _ | _ | _ <;> rw [ho] at h <;> cases h
  rfl

theorem completeStep_done_out (cfg : Config) (s : EState) (rest : List Char) (res : LineRes)
    (h : completeStep cfg s rest = .done res) :
    res.out = if res.exit = LineExit.panicked then none
      else some (String.mk res.state.buffer) := by
  unfold completeStep at h
  rcases hc : cfg.complete with _ | f
  · rw [hc] at h
    cases h
  · rw [hc] at h
    simp only [] at h
    split_ifs at h with h1
    exact completeFinish_done_out _ _ _ h

theorem lineStep_done_out (cfg : Config) (s : EState) (r : Char) (rest : List Char)
    (res : LineRes) (h : lineStep cfg s r rest = .done res) :
    res.out = if res.exit = LineExit.panicked then none
      else some (String.mk res.state.buffer) := by
  unfold lineStep at h
  split at h <;>
    first
    | (cases h <;> rfl)
    | (split at h <;> (cases h <;> rfl))
    | (exact escStep_done_out s rest res h)
    | (exact completeStep_done_out cfg s rest res h)

theorem lineLoop_out (cfg : Config) (s : EState) (input : List Char) :
    (lineLoop cfg s input).out =
      if (lineLoop cfg s input).exit = LineExit.panicked then none
      else some (String.mk (lineLoop cfg s input).state.buffer) := by
  induction s, input using lineLoop.induct cfg with
  | case1 s =>
    rw [lineLoop]
    rfl
  | case2 s c rest res h =>
    rw [lineLoop]
    split
    · next res1 heq =>
      rw [h] at heq
      cases heq
      exact lineStep_done_out cfg s c rest res h
    · next s1 rest1 heq =>
      rw [h] at heq
      cases heq
  | case3 s c rest s1 rest1 h ih =>
    rw [lineLoop]
    split
    · next res1 heq =>
      rw [h] at heq
      cases heq
    · next s2 rest2 heq =>
      rw [h] at heq
      cases heq
      exact ih

theorem applyOp_inv (op : Op) (s s1 : EState) (n : Nat)
    (hs : inv s) (h : applyOp op s = some (s1, n)) : inv s1 := by
  obtain ⟨h0, h1⟩ := hs
  cases op with
  | insert r =>
    simp only [applyOp, editInsert, Option.some.injEq, Prod.mk.injEq] at h
    obtain ⟨hx, -⟩ := h
    subst hx
    simp only [inv, List.length_append, List.length_take, List.length_cons, List.length_drop]
    omega
  | backspace =>
    simp only [applyOp, editBackspace] at h
    split_ifs at h with hp <;>
      (simp only [Option.some.injEq, Prod.mk.injEq] at h; obtain ⟨hx, -⟩ := h; subst hx)
    · exact ⟨h0, h1⟩
    · simp only [inv]
      rw [List.length_eraseIdx, if_pos (show (s.pos - 1).toNat < s.buffer.length by omega)]
      omega
  | delete =>
    simp only [applyOp, editDelete] at h
    split_ifs at h with hp <;>
      (simp only [Option.some.injEq, Prod.mk.injEq] at h; obtain ⟨hx, -⟩ := h; subst hx)
    · exact ⟨h0, h1⟩
    · simp only [inv]
      rw [List.length_eraseIdx, if_pos (show s.pos.toNat < s.buffer.length by omega)]
      omega
  | swap =>
    simp only [applyOp, editSwap] at h
    split_ifs at h with hp <;>
      first
      | (simp only [Option.some.injEq, Prod.mk.injEq] at h; obtain ⟨hx, -⟩ := h; subst hx;
         exact ⟨h0, h1⟩)
      | (split at h <;>
          first
          | (simp only [Option.some.injEq, Prod.mk.injEq] at h; obtain ⟨hx, -⟩ := h; subst hx)
          | cases h)
    all_goals (simp only [inv, List.length_set]; omega)
  | killForward =>
    simp only [applyOp, editKillForward, Option.some.injEq, Prod.mk.injEq] at h
    obtain ⟨hx, -⟩ := h
    subst hx
    simp only [inv, List.length_take]
    omega
  | deletePrevWord =>
    simp only [applyOp, editDeletePrevWord, Option.some.injEq, Prod.mk.injEq] at h
    obtain ⟨hx, -⟩ := h
    subst hx
    have hp0 := dpwLoop_nonneg s.buffer (s.pos - 1) false
    have hp1 := dpwLoop_le s.buffer (s.pos - 1) false
    simp only [inv, List.length_take]
    omega
  | moveLeft =>
    simp only [applyOp, editMoveLeft] at h
    split_ifs at h with hp <;>
      (simp only [Option.some.injEq, Prod.mk.injEq] at h; obtain ⟨hx, -⟩ := h; subst hx)
    · exact ⟨h0, h1⟩
    · simp only [inv]
      omega
  | moveRight =>
    simp only [applyOp, editMoveRight] at h
    split_ifs at h with hp <;>
      (simp only [Option.some.injEq, Prod.mk.injEq] at h; obtain ⟨hx, -⟩ := h; subst hx)
    · exact ⟨h0, h1⟩
    · simp only [inv]
      omega
  | moveHome =>
    simp only [applyOp, editMoveHome] at h
    split_ifs at h with hp <;>
      (simp only [Option.some.injEq, Prod.mk.injEq] at h; obtain ⟨hx, -⟩ := h; subst hx)
    · exact ⟨h0, h1⟩
    · simp only [inv]
      omega
  | moveEnd =>
    simp only [applyOp, editMoveEnd] at h
    split_ifs at h with hp <;>
      (simp only [Option.some.injEq, Prod.mk.injEq] at h; obtain ⟨hx, -⟩ := h; subst hx)
    · exact ⟨h0, h1⟩
    · simp only [inv]
      omega
  | historyPrev =>
    simp only [applyOp, editHistoryPrev] at h
    split_ifs at h with hp <;>
      (simp only [Option.some.injEq, Prod.mk.injEq] at h; obtain ⟨hx, -⟩ := h; subst hx)
    · exact ⟨h0, h1⟩
    · simp only [inv]
      omega
  | historyNext =>
    simp only [applyOp, editHistoryNext] at h
    split_ifs at h with hp <;>
      (simp only [Option.some.injEq, Prod.mk.injEq] at h; obtain ⟨hx, -⟩ := h; subst hx)
    · exact ⟨h0, h1⟩
    · simp only [inv]
      omega
  | reset =>
    simp only [applyOp, Option.some.injEq, Prod.mk.injEq] at h
    obtain ⟨hx, -⟩ := h
    subst hx
    simp [inv, editReset]
  | completeCommit c =>
    simp only [applyOp, Option.some.injEq, Prod.mk.injEq] at h
    obtain ⟨hx, -⟩ := h
    subst hx
    simp only [inv]
    omega
  | completeCancel =>
    simp only [applyOp, Option.some.injEq, Prod.mk.injEq] at h
    obtain ⟨hx, -⟩ := h
    subst hx
    exact ⟨h0, h1⟩

theorem lineLoop_cons_done (cfg : Config) (s : EState) (r : Char) (rest : List Char)
    (res : LineRes) (h : lineStep cfg s r rest = .done res) :
    lineLoop cfg s (r :: rest) = res := by
  rw [lineLoop]
  split
  · next res1 heq => rw [h] at heq; cases heq; rfl
  · next s1 rest1 heq => rw [h] at heq; cases heq

theorem lineLoop_cons_cont (cfg : Config) (s : EState) (r : Char) (rest : List Char)
    (s1 : EState) (rest1 : List Char) (h : lineStep cfg s r rest = .cont s1 rest1) :
    lineLoop cfg s (r :: rest) = lineLoop cfg s1 rest1 := by
  rw [lineLoop]
  split
  · next res1 heq => rw [h] at heq; cases heq
  · next s2 rest2 heq => rw [h] at heq; cases heq; rfl

/-- C1: a fresh `Line()` session (`editReset`) establishes the cursor
invariant `0 ≤ Pos ≤ len(Buffer)`, and every edit operation the session can
apply (insert, deletes, transpose, kill-to-end, delete-prev-word, moves,
history navigation, completion accept and cancel, reset) preserves it
whenever it returns a state, so the invariant holds in every reachable
editor state. -/
theorem claim1_cursor_invariant (s s1 : EState) (op : Op) (n : Nat)
    (hs : inv s) (h : applyOp op s = some (s1, n)) :
    inv s1 ∧ inv (editReset s) :=
  ⟨applyOp_inv op s s1 n hs h, by simp [inv, editReset]⟩

/-- Witness for C1 at a concrete state and operation. -/
theorem claim1_cursor_invariant_witness :
    inv (⟨[], 0, [""]⟩ : EState) ∧ inv (editReset ⟨['a'], 1, [""]⟩) :=
  claim1_cursor_invariant ⟨['a'], 1, [""]⟩ ⟨[], 0, [""]⟩ .backspace 0 (by decide) (by decide)

/-- C2 is refuted by the code: `HistoryAdd` compares the new line with the
ring element the pointer currently designates (the draft slot, still `""`),
not with the most recently added entry, so `Add "a"; Add "a"` on a fresh
editor stores `"a"` twice; read from the current slot in `Next` order the
ring is `["", "a", "a"]`, with two equal consecutive entries. -/
theorem claim2_historyAdd_duplicate :
    historyAdd (historyAdd [] "a") "a" = ["", "a", "a"] := by decide

/-- C3 is refuted by the code: a dimension-query response with no match for
the pattern panics (indexing the nil submatch slice) instead of returning a
parse error; only the overflowing-digits case is an error return that keeps
the prior dimensions. -/
theorem claim3_adjust_nomatch_panics :
    adjustDimensions ("abcR".data) 24 80 = ⟨.panics, 24, 80⟩ ∧
    adjustDimensions ("\x1b[99999999999999999999;3R".data) 24 80 = ⟨.errReturn, 24, 80⟩ := by
  decide

/-- Witness for C4: candidates `["bar", "baz"]` over original buffer
`"foo "`, two trigger keys then `x`: the sub-loop displayed `"bar"`,
`"baz"`, `"foo "` and committed the original content, leaving `x`
unconsumed. -/
theorem claim4_completion_witness :
    completeLoop (buildRing ["bar", "baz"] (String.mk "foo ".data)) "foo ".data 4
        (List.replicate 2 tabChar ++ ['x']) =
      ⟨["bar", "baz", "foo "], "foo ".data, 4, ['x'], .commit, none⟩ := by
  have h := completeLine_cycles ["bar", "baz"] (by decide) "foo ".data 4 'x' (by decide) 2
  rw [h]
  decide

/-- C5: ctrl-D (0x04) on an empty buffer ends the `Line()` call with the
end-of-stream exit and empty confirmed text; on a non-empty buffer the call
does not end and continues exactly as DeleteForward at the cursor. -/
theorem claim5_ctrlD_eof_or_delete (cfg : Config) (s : EState) (rest : List Char) :
    (s.buffer = [] → lineLoop cfg s (Char.ofNat 4 :: rest) = ⟨some "", s, .eof⟩) ∧
    (s.buffer ≠ [] → lineLoop cfg s (Char.ofNat 4 :: rest) = lineLoop cfg (editDelete s).1 rest) := by
  have h4 : (Char.ofNat 4).toNat = 4 := by decide
  constructor
  · intro hb
    apply lineLoop_cons_done
    unfold lineStep
    rw [h4]
    simp [hb]
  · intro hb
    apply lineLoop_cons_cont
    unfold lineStep
    rw [h4]
    simp [hb]

/-- Witness for C5 on concrete sessions. -/
theorem claim5_ctrlD_witness :
    lineLoop ⟨none⟩ ⟨[], 0, [""]⟩ [Char.ofNat 4] = ⟨some "", ⟨[], 0, [""]⟩, .eof⟩ ∧
    lineLoop ⟨none⟩ ⟨['a'], 0, [""]⟩ [Char.ofNat 4] =
      lineLoop ⟨none⟩ (editDelete ⟨['a'], 0, [""]⟩).1 [] :=
  ⟨(claim5_ctrlD_eof_or_delete ⟨none⟩ ⟨[], 0, [""]⟩ []).1 rfl,
   (claim5_ctrlD_eof_or_delete ⟨none⟩ ⟨['a'], 0, [""]⟩ []).2 (by decide)⟩

/-- C6: an edit operation at its boundary (DeleteBackward, MoveLeft or
MoveHome at cursor 0; DeleteForward, MoveRight or MoveEnd at the buffer
end) writes exactly one bell, changes neither buffer nor cursor, and the
main loop continues without returning an error. -/
theorem claim6_boundary_noop (cfg : Config) (s : EState) (rest : List Char) :
    (s.pos = 0 →
      editBackspace s = (s, 1) ∧ editMoveLeft s = (s, 1) ∧ editMoveHome s = (s, 1) ∧
      lineLoop cfg s (Char.ofNat 127 :: rest) = lineLoop cfg s rest ∧
      lineLoop cfg s (Char.ofNat 8 :: rest) = lineLoop cfg s rest ∧
      lineLoop cfg s (Char.ofNat 2 :: rest) = lineLoop cfg s rest ∧
      lineLoop cfg s (Char.ofNat 1 :: rest) = lineLoop cfg s rest) ∧
    (s.pos = (s.buffer.length : Int) →
      editDelete s = (s, 1) ∧ editMoveRight s = (s, 1) ∧ editMoveEnd s = (s, 1) ∧
      lineLoop cfg s (Char.ofNat 6 :: rest) = lineLoop cfg s rest ∧
      lineLoop cfg s (Char.ofNat 5 :: rest) = lineLoop cfg s rest ∧
      lineLoop cfg s (Char.ofNat 27 :: '[' :: '3' :: '~' :: rest) = lineLoop cfg s rest) := by
  constructor
  · intro hp
    have hb : editBackspace s = (s, 1) := by simp [editBackspace, hp]
    have hl : editMoveLeft s = (s, 1) := by simp [editMoveLeft, hp]
    have hh : editMoveHome s = (s, 1) := by simp [editMoveHome, hp]
    refine ⟨hb, hl, hh, ?_, ?_, ?_, ?_⟩
    · apply lineLoop_cons_cont
      have hr : (Char.ofNat 127).toNat = 127 := by decide
      unfold lineStep
      rw [hr, hb]
    · apply lineLoop_cons_cont
      have hr : (Char.ofNat 8).toNat = 8 := by decide
      unfold lineStep
      rw [hr, hb]
    · apply lineLoop_cons_cont
      have hr : (Char.ofNat 2).toNat = 2 := by decide
      unfold lineStep
      rw [hr, hl]
    · apply lineLoop_cons_cont
      have hr : (Char.ofNat 1).toNat = 1 := by decide
      unfold lineStep
      rw [hr, hh]
  · intro hp
    have hd : editDelete s = (s, 1) := by simp [editDelete, hp]
    have hr6 : editMoveRight s = (s, 1) := by simp [editMoveRight, hp]
    have he : editMoveEnd s = (s, 1) := by simp [editMoveEnd, hp]
    refine ⟨hd, hr6, he, ?_, ?_, ?_⟩
    · apply lineLoop_cons_cont
      have hr : (Char.ofNat 6).toNat = 6 := by decide
      unfold lineStep
      rw [hr, hr6]
    · apply lineLoop_cons_cont
      have hr : (Char.ofNat 5).toNat = 5 := by decide
      unfold lineStep
      rw [hr, he]
    · apply lineLoop_cons_cont
      have hr : (Char.ofNat 27).toNat = 27 := by decide
      unfold lineStep
      rw [hr]
      show escStep s ('[' :: '3' :: '~' :: rest) = _
      simp [escStep, hd]

/-- Witness for C6 on a concrete boundary state. -/
theorem claim6_boundary_witness :
    editBackspace ⟨['a'], 0, [""]⟩ = (⟨['a'], 0, [""]⟩, 1) ∧
    editDelete ⟨['a'], 1, [""]⟩ = (⟨['a'], 1, [""]⟩, 1) ∧
    lineLoop ⟨none⟩ ⟨['a'], 0, [""]⟩ [Char.ofNat 2] = lineLoop ⟨none⟩ ⟨['a'], 0, [""]⟩ [] :=
  ⟨((claim6_boundary_noop ⟨none⟩ ⟨['a'], 0, [""]⟩ []).1 rfl).1,
   ((claim6_boundary_noop ⟨none⟩ ⟨['a'], 1, [""]⟩ []).2 (by decide)).1,
   ((claim6_boundary_noop ⟨none⟩ ⟨['a'], 0, [""]⟩ []).1 rfl).2.2.2.2.2.1⟩

/-- C7 is refuted by the code: on the empty buffer (a state satisfying the
cursor invariant) `editSwap` computes `p = -1`, passes the `p = 0` guard and
reads `Buffer[-2]` and `Buffer[-1]` — an out-of-range access (runtime
panic), so the out-of-bounds branch is reachable. -/
theorem claim7_editSwap_empty_panics :
    inv (⟨[], 0, [""]⟩ : EState) ∧ editSwap ⟨[], 0, [""]⟩ = none := by decide

/-- C8: the renderer derives the end-of-content, cursor and previous-cursor
positions by dividing the cumulative widths `pw+bw+hw`, `pw+cw` and
`pw+ocw` by `Cols` (quotient = row, remainder = column), where the
cumulative widths are the width sums of the prompt, the whole buffer, the
buffer before the cursor, the buffer before the previous cursor, and the
hint under the configured width function. -/
theorem claim8_refresh_geometry (f : Char → Int) (prompt buffer : List Char)
    (pos old : Int) (hint : List Char) (colsT : Int) (_hc : 0 < colsT) :
    refreshGeometry f prompt buffer pos old hint colsT =
      (⟨Int.tmod (widthSum f prompt + widthSum f buffer + widthSum f hint) colsT,
        Int.tdiv (widthSum f prompt + widthSum f buffer + widthSum f hint) colsT⟩,
       ⟨Int.tmod (widthSum f prompt + widthSum f (buffer.take pos.toNat)) colsT,
        Int.tdiv (widthSum f prompt + widthSum f (buffer.take pos.toNat)) colsT⟩,
       ⟨Int.tmod (widthSum f prompt + widthSum f (buffer.take old.toNat)) colsT,
        Int.tdiv (widthSum f prompt + widthSum f (buffer.take old.toNat)) colsT⟩) := by
  unfold refreshGeometry
  rw [bufWidthsGo_eq]
  simp

/-- Witness for C8, the round-trip of the spec: `cols = 10`, prompt width 2,
buffer `"foo bar"` (7 columns), cursor at the end — end-of-content and
cursor both land at row 0, column 9. -/
theorem claim8_refresh_geometry_witness :
    refreshGeometry defaultWidth "> ".data "foo bar".data 7 0 [] 10 =
      (⟨9, 0⟩, ⟨9, 0⟩, ⟨2, 0⟩) := by
  have h := claim8_refresh_geometry defaultWidth "> ".data "foo bar".data 7 0 [] 10 (by decide)
  rw [h]
  decide

/-- Witness for C9 on a concrete buffer: `"ab cd  "` with the cursor at the
end keeps `"ab "`. -/
theorem claim9_delete_prev_word_witness :
    editDeletePrevWord ⟨"ab cd  ".data, 7, [""]⟩ = (⟨"ab ".data, 3, [""]⟩, 0) := by
  have h := editDeletePrevWord_boundary ⟨"ab cd  ".data, 7, [""]⟩ (by decide)
  rw [h]
  decide

/-- C10: on every exit path of `Line()` that returns (accept, interrupt,
end-of-input, and every channel read error, including one inside the
completion sub-loop), the returned string is exactly the buffer contents at
the moment of return; only a runtime panic (which never returns) yields no
string. -/
theorem claim10_line_returns_buffer (cfg : Config) (s : EState) (input : List Char) :
    (LineFn cfg s input).out =
      if (LineFn cfg s input).exit = LineExit.panicked then none
      else some (String.mk (LineFn cfg s input).state.buffer) :=
  lineLoop_out cfg (editReset s) input

end Linesqueak
